import Mathlib

/-!
Verification development for the Editor repository.

The definitions below are shallow embeddings of the core algorithms of the
repository:

* the command-based pagination engine
  (`src/components/EditorCanvas.tsx`, `createPaginationCommand`),
* the view-based pagination engine with block splitting
  (`src/unnamed/part_002`, `PaginationView`),
* the structural projection and serialization helpers
  (`src/services/xmlSerializer.ts`).

Blocks are modelled by structures carrying exactly the fields the embedded
code reads; DOM measurement is modelled by an opaque height oracle passed as
a function argument, mirroring how the source treats layout measurement as
an external capability.
-/

namespace Editor

/-- Style metadata, from `src/types.ts` (`interface Style`); only the fields
read by the embedded algorithms are carried. -/
structure Style where
  key : String
  jatsTag : String := ""
  bitsTag : String := ""
  nestingParentJats : Option String := none
  nestingParentBits : Option String := none
  level : Option Int := none
  matterType : Option String := none
  deriving Repr, DecidableEq

/-- The style registry: a keyed map, modelled as an association list looked
up by key (`styles[block.style]` in the source). -/
abbrev StyleReg := List (String × Style)

/-- List-prefix test on character lists, used to model JS substring tests. -/
def beginsWith : List Char → List Char → Bool
  | [], _ => true
  | _ :: _, [] => false
  | p :: ps, c :: cs => p == c && beginsWith ps cs

/-- Contiguous-substring test on character lists. -/
def containsSeq (pat : List Char) : List Char → Bool
  | [] => beginsWith pat []
  | c :: cs => beginsWith pat (c :: cs) || containsSeq pat cs

/-- JS `String.prototype.includes`. -/
def strIncludes (s pat : String) : Bool := containsSeq pat.toList s.toList

/-! ## Command-based pagination engine

Embeds `createPaginationCommand` from `src/components/EditorCanvas.tsx`
(lines 218-348).  A top-level ProseMirror node is identified by its node
type name, which is the block's style key; the measurement oracle measures
a whole page's worth of nodes as a unit, as the source serializes
`[...currentPageContent, node]` into one hidden div and reads its
`scrollHeight`. -/

/-- A content block as the pagination command sees it. -/
structure PBlock where
  style : String
  content : String := ""
  deriving Repr, DecidableEq

/-- An element of the paginated sequence: a content block or a page-break
marker carrying the 1-based number of the page it terminates. -/
inductive Item where
  | block (b : PBlock)
  | marker (pageNumber : Nat)
  deriving Repr, DecidableEq

/-- Step 1 of the engine: remove all existing `page_break` nodes, recovering
the clean content sequence. -/
def stripMarkers (items : List Item) : List PBlock :=
  items.filterMap fun it =>
    match it with
    | .block b => some b
    | .marker _ => none

/-- EditorCanvas.tsx line 291: `style && (style.key === 'del' || style.key
=== 'kapitel')`. -/
def isMajorHeading (styles : StyleReg) (k : String) : Bool :=
  match styles.lookup k with
  | some s => s.key == "del" || s.key == "kapitel"
  | none => false

/-- EditorCanvas.tsx line 307: the previous-node heading test — the style
key contains "heading", or is `kapitel` or `del` (this engine does not
consult `level`). -/
def isHeadingKeyCmd (styles : StyleReg) (k : String) : Bool :=
  match styles.lookup k with
  | some s => strIncludes s.key "heading" || s.key == "kapitel" || s.key == "del"
  | none => false

/-- Walk state of the command engine: blocks committed to the current page,
the recorded break positions (most recent first, as pairs of clean-sequence
index and page number), and the running page counter. -/
structure CmdState where
  page : List PBlock
  breaks : List (Nat × Nat)
  counter : Nat
  deriving Repr, DecidableEq

/-- One iteration of the walk in `createPaginationCommand` (lines 287-330)
for the block at clean-sequence index `i`. -/
def stepCmd (styles : StyleReg) (measure : List PBlock → Int) (contentH : Int)
    (st : CmdState) (i : Nat) (b : PBlock) : CmdState :=
  let forceBreak := isMajorHeading styles b.style && decide (0 < i) && !st.page.isEmpty
  let newTotal := measure (st.page ++ [b])
  if forceBreak || (decide (contentH < newTotal) && decide (0 < i) && !st.page.isEmpty) then
    let prevHeading :=
      match st.page.getLast? with
      | some p => isHeadingKeyCmd styles p.style
      | none => false
    let widow := !forceBreak && prevHeading
    let breakPos := if widow then i - 1 else i
    let pushBreak :=
      match st.breaks.head? with
      | some lb => lb.1 != breakPos
      | none => true
    { page := if widow then st.page.getLast?.toList ++ [b] else [b]
      breaks := if pushBreak then (breakPos, st.counter) :: st.breaks else st.breaks
      counter := if pushBreak then st.counter + 1 else st.counter }
  else
    { st with page := st.page ++ [b] }

/-- The walk over the clean sequence, carrying the index of the current
block. -/
def runCmd (styles : StyleReg) (measure : List PBlock → Int) (contentH : Int) :
    Nat → CmdState → List PBlock → CmdState
  | _, st, [] => st
  | i, st, b :: rest =>
      runCmd styles measure contentH (i + 1) (stepCmd styles measure contentH st i b) rest

/-- The break positions computed for a clean sequence, in chronological
order. -/
def paginateBreaks (styles : StyleReg) (measure : List PBlock → Int) (contentH : Int)
    (startPage : Nat) (clean : List PBlock) : List (Nat × Nat) :=
  (runCmd styles measure contentH 0 ⟨[], [], startPage⟩ clean).breaks.reverse

/-- Step 3 of the engine: insert the recorded markers back into the clean
sequence; a break recorded at index `i` becomes a marker immediately before
the `i`-th clean block (the source iterates the insertions backwards so
that each lands at its clean-document position). -/
def weave (breaks : List (Nat × Nat)) : Nat → List PBlock → List Item
  | _, [] => []
  | i, b :: rest =>
      (breaks.filter fun e => e.1 == i).map (fun e => Item.marker e.2)
        ++ Item.block b :: weave breaks (i + 1) rest

/-- The full pagination command: strip old markers, recompute breaks, insert
new markers. -/
def paginateCmd (styles : StyleReg) (measure : List PBlock → Int) (contentH : Int)
    (startPage : Nat) (input : List Item) : List Item :=
  let clean := stripMarkers input
  weave (paginateBreaks styles measure contentH startPage clean) 0 clean

theorem stripMarkers_append (a b : List Item) :
    stripMarkers (a ++ b) = stripMarkers a ++ stripMarkers b := by
  simp [stripMarkers]

theorem stripMarkers_markers (l : List (Nat × Nat)) :
    stripMarkers (l.map fun e => Item.marker e.2) = [] := by
  induction l with
  | nil => rfl
  | cons e rest ih => simp [stripMarkers, ih]

theorem stripMarkers_weave (breaks : List (Nat × Nat)) :
    ∀ (i : Nat) (bs : List PBlock), stripMarkers (weave breaks i bs) = bs := by
  intro i bs
  induction bs generalizing i with
  | nil => rfl
  | cons b rest ih =>
      rw [weave, stripMarkers_append, stripMarkers_markers]
      simp only [List.nil_append, stripMarkers] at *
      simp [ih (i + 1)]

theorem stripMarkers_map_block (bs : List PBlock) :
    stripMarkers (bs.map Item.block) = bs := by
  induction bs with
  | nil => rfl
  | cons b rest ih => simpa [stripMarkers] using ih

theorem stripMarkers_paginateCmd (styles : StyleReg) (measure : List PBlock → Int)
    (contentH : Int) (startPage : Nat) (input : List Item) :
    stripMarkers (paginateCmd styles measure contentH startPage input) =
      stripMarkers input := by
  simp [paginateCmd, stripMarkers_weave]

theorem paginateCmd_congr_strip (styles : StyleReg) (measure : List PBlock → Int)
    (contentH : Int) (startPage : Nat) (x y : List Item)
    (h : stripMarkers x = stripMarkers y) :
    paginateCmd styles measure contentH startPage x =
      paginateCmd styles measure contentH startPage y := by
  unfold paginateCmd
  rw [h]

/-- Every branch of the walk commits the current block, so the page under
construction is never empty after a step. -/
theorem stepCmd_page_ne (styles : StyleReg) (measure : List PBlock → Int) (contentH : Int)
    (st : CmdState) (i : Nat) (b : PBlock) :
    (stepCmd styles measure contentH st i b).page ≠ [] := by
  simp only [stepCmd]
  split
  · dsimp only
    split <;> simp
  · simp

/-- Break positions recorded by a step at index `i` are at most `i`; earlier
positions are untouched. -/
theorem stepCmd_breaks_lt (styles : StyleReg) (measure : List PBlock → Int) (contentH : Int)
    (st : CmdState) (i : Nat) (b : PBlock)
    (h : ∀ e ∈ st.breaks, e.1 < i) :
    ∀ e ∈ (stepCmd styles measure contentH st i b).breaks, e.1 < i + 1 := by
  intro e he
  simp only [stepCmd] at he
  split at he
  · dsimp only at he
    split at he <;> split at he
    all_goals
      first
      | exact Nat.lt_succ_of_lt (h _ he)
      | (rcases List.mem_cons.mp he with h1 | h1
         · subst h1; dsimp only; omega
         · exact Nat.lt_succ_of_lt (h _ h1))
  · exact Nat.lt_succ_of_lt (h _ he)

/-- A step never removes recorded breaks. -/
theorem stepCmd_breaks_extend (styles : StyleReg) (measure : List PBlock → Int)
    (contentH : Int) (st : CmdState) (i : Nat) (b : PBlock) :
    ∃ t, (stepCmd styles measure contentH st i b).breaks = t ++ st.breaks := by
  simp only [stepCmd]
  split
  · dsimp only
    split <;> split
    all_goals first | exact ⟨[_], rfl⟩ | exact ⟨[], rfl⟩
  · exact ⟨[], rfl⟩

theorem runCmd_breaks_extend (styles : StyleReg) (measure : List PBlock → Int)
    (contentH : Int) :
    ∀ (bs : List PBlock) (i : Nat) (st : CmdState),
      ∃ t, (runCmd styles measure contentH i st bs).breaks = t ++ st.breaks := by
  intro bs
  induction bs with
  | nil => exact fun i st => ⟨[], rfl⟩
  | cons b rest ih =>
      intro i st
      obtain ⟨t1, h1⟩ := stepCmd_breaks_extend styles measure contentH st i b
      obtain ⟨t2, h2⟩ := ih (i + 1) (stepCmd styles measure contentH st i b)
      exact ⟨t2 ++ t1, by simp [runCmd, h2, h1]⟩

/-- Behaviour of a step on a major heading (`del` / `kapitel`) at a positive
index with a non-empty current page: a break is recorded exactly at the
block's own index and the new page starts with just that block — the
widow-prevention pull of a preceding heading is not performed. -/
theorem stepCmd_forced (styles : StyleReg) (measure : List PBlock → Int) (contentH : Int)
    (st : CmdState) (i : Nat) (b : PBlock)
    (hmaj : isMajorHeading styles b.style = true) (hi : 0 < i) (hne : st.page ≠ [])
    (hlt : ∀ e ∈ st.breaks, e.1 < i) :
    stepCmd styles measure contentH st i b =
      { page := [b], breaks := (i, st.counter) :: st.breaks, counter := st.counter + 1 } := by
  have h1 : st.page.isEmpty = false := by simpa [List.isEmpty_iff] using hne
  have h2 : decide (0 < i) = true := by simpa using hi
  simp only [stepCmd, hmaj, h1, h2, Bool.and_self, Bool.not_false, Bool.and_true,
    Bool.true_and, Bool.true_or, if_true, Bool.false_and, Bool.not_true]
  cases hbr : st.breaks with
  | nil => simp
  | cons lb tl =>
      have : lb.1 ≠ i := Nat.ne_of_lt (hlt lb (by simp [hbr]))
      simp [bne, this]

/-- Under the premises of `stepCmd_forced`, the full walk records a break at
the major heading's index. -/
theorem runCmd_forced_mem (styles : StyleReg) (measure : List PBlock → Int)
    (contentH : Int) :
    ∀ (bs : List PBlock) (k : Nat) (b : PBlock) (i : Nat) (st : CmdState),
      bs.get? k = some b →
      isMajorHeading styles b.style = true →
      0 < i + k →
      (0 < i → st.page ≠ []) →
      (∀ e ∈ st.breaks, e.1 < i) →
      ∃ p, (i + k, p) ∈ (runCmd styles measure contentH i st bs).breaks := by
  intro bs
  induction bs with
  | nil =>
      intro k b i st hget
      simp at hget
  | cons b0 rest ih =>
      intro k b i st hget hmaj hpos hpage hlt
      cases k with
      | zero =>
          have hb : b0 = b := by simpa using hget
          subst hb
          have hi : 0 < i := by simpa using hpos
          have hstep := stepCmd_forced styles measure contentH st i b0 hmaj hi (hpage hi) hlt
          obtain ⟨t, ht⟩ := runCmd_breaks_extend styles measure contentH rest (i + 1)
            (stepCmd styles measure contentH st i b0)
          refine ⟨st.counter, ?_⟩
          rw [runCmd, ht, hstep]
          simp
      | succ k2 =>
          have hget2 : rest.get? k2 = some b := by simpa using hget
          have heq : i + (k2 + 1) = (i + 1) + k2 := by omega
          rw [runCmd, heq]
          exact ih k2 b (i + 1) (stepCmd styles measure contentH st i b0) hget2 hmaj
            (by omega) (fun _ => stepCmd_page_ne styles measure contentH st i b0)
            (stepCmd_breaks_lt styles measure contentH st i b0 hlt)

/-- True when the `i`-th content block (0-based, markers not counted) of the
item sequence is immediately preceded by a page-break marker; the boolean
argument records whether the last item seen was a marker. -/
def hasMarkerBefore : Bool → Nat → List Item → Bool
  | _, _, [] => false
  | _, i, Item.marker _ :: rest => hasMarkerBefore true i rest
  | prev, i, Item.block _ :: rest => if i = 0 then prev else hasMarkerBefore false (i - 1) rest

theorem hasMarkerBefore_markers_true (ms : List (Nat × Nat)) :
    ∀ (b : PBlock) (tail : List Item),
      hasMarkerBefore true 0 ((ms.map fun e => Item.marker e.2) ++ Item.block b :: tail)
        = true := by
  induction ms with
  | nil => intro b tail; simp [hasMarkerBefore]
  | cons m tl ih => intro b tail; simpa [hasMarkerBefore] using ih b tail

theorem hasMarkerBefore_markers_ne (ms : List (Nat × Nat)) (hne : ms ≠ [])
    (prev : Bool) (b : PBlock) (tail : List Item) :
    hasMarkerBefore prev 0 ((ms.map fun e => Item.marker e.2) ++ Item.block b :: tail)
      = true := by
  cases ms with
  | nil => exact absurd rfl hne
  | cons m tl => simpa [hasMarkerBefore] using hasMarkerBefore_markers_true tl b tail

theorem hasMarkerBefore_skip (ms : List (Nat × Nat)) :
    ∀ (prev : Bool) (i : Nat), 0 < i → ∀ (b : PBlock) (tail : List Item),
      hasMarkerBefore prev i ((ms.map fun e => Item.marker e.2) ++ Item.block b :: tail)
        = hasMarkerBefore false (i - 1) tail := by
  induction ms with
  | nil =>
      intro prev i hi b tail
      simp [hasMarkerBefore, Nat.ne_of_gt hi, Nat.pos_iff_ne_zero.mp hi]
  | cons m tl ih =>
      intro prev i hi b tail
      simpa [hasMarkerBefore] using ih true i hi b tail

theorem weave_hasMarkerBefore :
    ∀ (bs : List PBlock) (br : List (Nat × Nat)) (i j p : Nat),
      (j + i, p) ∈ br → i < bs.length →
      hasMarkerBefore false i (weave br j bs) = true := by
  intro bs
  induction bs with
  | nil =>
      intro br i j p _ hlen
      simp at hlen
  | cons b rest ih =>
      intro br i j p hmem hlen
      cases i with
      | zero =>
          have hmem2 : (j, p) ∈ br.filter fun e => e.1 == j := by
            simp only [List.mem_filter]
            exact ⟨by simpa using hmem, by simp⟩
          have hne : (br.filter fun e => e.1 == j) ≠ [] := by
            intro hnil
            rw [hnil] at hmem2
            simp at hmem2
          rw [weave]
          exact hasMarkerBefore_markers_ne _ hne false b _
      | succ i2 =>
          rw [weave, hasMarkerBefore_skip _ false (i2 + 1) (Nat.succ_pos i2) b _]
          have heq : (j + 1) + i2 = j + (i2 + 1) := by omega
          exact ih br i2 (j + 1) p (by rw [heq]; exact hmem) (by simpa using hlen)

/-- Scans an item sequence and checks that no page-break marker is
immediately preceded (ignoring other markers) by a heading-class block; the
option argument carries the last content block seen. -/
def noOrphanedHeading (styles : StyleReg) : Option PBlock → List Item → Bool
  | _, [] => true
  | last, Item.marker _ :: rest =>
      (match last with
       | some b => !isHeadingKeyCmd styles b.style
       | none => true) && noOrphanedHeading styles last rest
  | _, Item.block b :: rest => noOrphanedHeading styles (some b) rest

/-- C4. Pagination is idempotent and independent of prior markers: running
the command on its own output (markers still present) reproduces that output
exactly, and both coincide with the run on the clean marker-free sequence,
because all existing page-break markers are unconditionally stripped before
break positions are recomputed. -/
theorem paginate_idempotent (styles : StyleReg) (measure : List PBlock → Int)
    (contentH : Int) (startPage : Nat) (input : List Item) :
    paginateCmd styles measure contentH startPage
        (paginateCmd styles measure contentH startPage input) =
      paginateCmd styles measure contentH startPage input ∧
    paginateCmd styles measure contentH startPage input =
      paginateCmd styles measure contentH startPage
        ((stripMarkers input).map Item.block) := by
  refine ⟨?_, ?_⟩
  · exact paginateCmd_congr_strip styles measure contentH startPage _ _
      (stripMarkers_paginateCmd styles measure contentH startPage input)
  · exact (paginateCmd_congr_strip styles measure contentH startPage _ _
      (stripMarkers_map_block (stripMarkers input))).symm

/-- C10. A block styled `del` or `kapitel` that is not the first clean block
always gets a page-break marker immediately before it in the output,
regardless of the measured heights, and on this forced-break path the
widow-prevention rule is skipped: the step leaves the previous committed
block (heading-class or not) on the old page and starts the new page with
the major heading alone. -/
theorem forced_break_major_heading (styles : StyleReg) (measure : List PBlock → Int)
    (contentH : Int) (startPage : Nat) (input : List Item) (i : Nat) (b : PBlock)
    (st : CmdState)
    (hget : (stripMarkers input).get? i = some b)
    (hmaj : isMajorHeading styles b.style = true)
    (hi : 0 < i)
    (hpage : st.page ≠ [])
    (hbr : ∀ e ∈ st.breaks, e.1 < i) :
    hasMarkerBefore false i (paginateCmd styles measure contentH startPage input) = true ∧
    (stepCmd styles measure contentH st i b).page = [b] := by
  constructor
  · obtain ⟨p, hp⟩ := runCmd_forced_mem styles measure contentH (stripMarkers input) i b 0
      ⟨[], [], startPage⟩ hget hmaj (by omega)
      (fun h => absurd h (lt_irrefl 0)) (by simp)
    have hlen : i < (stripMarkers input).length := by
      obtain ⟨h, _⟩ := List.get?_eq_some.mp hget
      exact h
    have hp2 : (0 + i, p) ∈ paginateBreaks styles measure contentH startPage
        (stripMarkers input) := by
      simpa [paginateBreaks] using hp
    simpa [paginateCmd] using
      weave_hasMarkerBefore (stripMarkers input) _ i 0 p hp2 hlen
  · rw [stepCmd_forced styles measure contentH st i b hmaj hi hpage hbr]

/-- Witness for `forced_break_major_heading` at a concrete document where
the `kapitel` block would easily fit on the current page. -/
theorem forced_break_major_heading_witness :
    hasMarkerBefore false 1
        (paginateCmd [("kapitel", { key := "kapitel" }), ("body", { key := "body" })]
          (fun _ => 0) 100 1
          [Item.block ⟨"body", ""⟩, Item.block ⟨"kapitel", ""⟩]) = true ∧
    (stepCmd [("kapitel", { key := "kapitel" }), ("body", { key := "body" })]
        (fun _ => 0) 100 ⟨[⟨"body", ""⟩], [], 5⟩ 1 ⟨"kapitel", ""⟩).page =
      [⟨"kapitel", ""⟩] :=
  forced_break_major_heading _ _ _ _ _ _ _ _ (by rfl) (by rfl) (by decide)
    (by simp) (by simp)

/-- C1 (amended). On the non-forced overflow path, when the single block
committed immediately before the overflow is heading-class, the step pulls
it off the current page: the break is recorded at the heading's index and
the new page starts with the heading followed by the overflowing block. -/
theorem widow_step_moves_heading (styles : StyleReg) (measure : List PBlock → Int)
    (contentH : Int) (st : CmdState) (i : Nat) (b prev : PBlock)
    (hlast : st.page.getLast? = some prev)
    (hover : contentH < measure (st.page ++ [b]))
    (hi : 0 < i)
    (hmaj : isMajorHeading styles b.style = false)
    (hph : isHeadingKeyCmd styles prev.style = true)
    (hded : ∀ lb ∈ st.breaks.head?, lb.1 ≠ i - 1) :
    stepCmd styles measure contentH st i b =
      { page := [prev, b], breaks := (i - 1, st.counter) :: st.breaks,
        counter := st.counter + 1 } := by
  have hne : st.page ≠ [] := by
    intro h
    rw [h] at hlast
    simp at hlast
  have h1 : st.page.isEmpty = false := by simpa [List.isEmpty_iff] using hne
  have h2 : decide (0 < i) = true := by simpa using hi
  have h3 : decide (contentH < measure (st.page ++ [b])) = true := by simpa using hover
  cases hbr : st.breaks with
  | nil => simp [stepCmd, hmaj, h1, h2, h3, hlast, hph, hbr]
  | cons lb tl =>
      have hne2 : lb.1 ≠ i - 1 := hded lb (by simp [hbr])
      simp [stepCmd, hmaj, h1, h2, h3, hlast, hph, hbr, bne_iff_ne, hne2]

/-- Witness for `widow_step_moves_heading` at a concrete overflowing step. -/
theorem widow_step_moves_heading_witness :
    stepCmd [("heading2", { key := "heading2" }), ("body", { key := "body" })]
        (fun _ => 100) 50 ⟨[⟨"heading2", ""⟩], [], 3⟩ 1 ⟨"body", ""⟩ =
      { page := [⟨"heading2", ""⟩, ⟨"body", ""⟩], breaks := [(0, 3)], counter := 4 } :=
  widow_step_moves_heading _ _ _ _ _ _ _ (by rfl) (by decide) (by decide) (by rfl)
    (by rfl) (by simp)

/-- C1 (counterexample). With two consecutive heading-class blocks followed
by an overflowing body block, widow prevention pulls back only the second
heading; the first heading is left as the last block of the shortened page,
immediately before the inserted marker. -/
theorem orphaned_heading_possible :
    noOrphanedHeading
        [("heading1", { key := "heading1" }), ("heading2", { key := "heading2" }),
         ("body", { key := "body" })]
        none
        (paginateCmd
          [("heading1", { key := "heading1" }), ("heading2", { key := "heading2" }),
           ("body", { key := "body" })]
          (fun l => if 3 ≤ l.length then 100 else 10) 50 1
          [Item.block ⟨"heading1", ""⟩, Item.block ⟨"heading2", ""⟩,
           Item.block ⟨"body", ""⟩]) = false := by
  rfl

/-! ## View-based pagination engine

Embeds `PaginationView` from `src/unnamed/part_002` (lines 303-524): the
`recalculate` pass strips old page breaks and rebuilds the whole sequence,
splitting an overflowing text block at a measured cut point.  Heights come
from `measureNodeFallback`, modelled as an opaque oracle on blocks. -/

/-- A block as the view-based engine sees it: the node type name (style
key), the text content as a character list (one character per content unit
of a plain textblock), and whether the node is a textblock (table and image
nodes are atoms). -/
structure VBlock where
  style : String
  content : List Char
  isText : Bool := true
  deriving Repr, DecidableEq

/-- An element of the rebuilt sequence; page breaks carry no page number in
this engine. -/
inductive VItem where
  | vblock (b : VBlock)
  | vmark
  deriving Repr, DecidableEq

/-- Pass 1 of `recalculate`: drop all existing page breaks. -/
def stripV (items : List VItem) : List VBlock :=
  items.filterMap fun it =>
    match it with
    | .vblock b => some b
    | .vmark => none

/-- The prefix block built by `node.copy(node.content.cut(0, n))`. -/
def prefixB (b : VBlock) (n : Nat) : VBlock := { b with content := b.content.take n }

/-- The remainder block built by `node.copy(node.content.cut(n))`. -/
def suffixB (b : VBlock) (n : Nat) : VBlock := { b with content := b.content.drop n }

/-- JS `String.prototype.lastIndexOf` for a single character. -/
def lastIdxOf (c : Char) : List Char → Int
  | [] => -1
  | a :: rest =>
      if 0 ≤ lastIdxOf c rest then lastIdxOf c rest + 1
      else if a == c then 0 else -1

/-- The binary-search loop of `PaginationView.findSplitPoint` (part_002
lines 364-383); `mh n` measures the prefix of `n` content units. -/
def bsearchLoop (mh : Nat → Int) (availH : Int) (low high : Nat) (best : Int) : Int :=
  if low ≤ high then
    if (low + high) / 2 = 0 then bsearchLoop mh availH ((low + high) / 2 + 1) high best
    else if mh ((low + high) / 2) ≤ availH then
      bsearchLoop mh availH ((low + high) / 2 + 1) high (Int.ofNat ((low + high) / 2))
    else bsearchLoop mh availH low ((low + high) / 2 - 1) best
  else best
termination_by high + 1 - low
decreasing_by all_goals omega

/-- The raw binary-search result (`bestCharSplit` in the source). -/
def bestCharSplit (measure : VBlock → Int) (b : VBlock) (availH : Int) : Int :=
  bsearchLoop (fun n => measure (prefixB b n)) availH 0 b.content.length (-1)

/-- The snap of a raw cut point back to the last whitespace of the sliced
text (part_002 lines 389-404). -/
def snapSplit (text : List Char) (best : Int) : Int :=
  let slice := text.take best.toNat
  let boundary := max (lastIdxOf ' ' slice) (lastIdxOf '\n' slice)
  if 0 < boundary then boundary + 1
  else if 0 < best then best
  else -1

/-- PaginationView.findSplitPoint (part_002 lines 359-405). -/
def findSplitPoint (measure : VBlock → Int) (b : VBlock) (availH : Int) : Int :=
  if !b.isText || b.content.length == 0 || availH ≤ 5 then -1
  else
    let best := bestCharSplit measure b availH
    if best ≤ 0 then -1
    else snapSplit b.content best

/-- Heading test of the view engine (part_002 line 457): the style must
declare a `level` and have a heading-ish key. -/
def isHeadingView (styles : StyleReg) (k : String) : Bool :=
  match styles.lookup k with
  | some s =>
      s.level.isSome && (strIncludes s.key "heading" || s.key == "kapitel" || s.key == "del")
  | none => false

/-- Whether the editor schema has a `body` node type; the schema declares
one node per registered style key (part_002 lines 238-254). -/
def hasBodyNode (styles : StyleReg) : Bool :=
  styles.any fun e => e.2.key == "body"

/-- The continuation loop for a split block: each round emits a page break
and then either the now-fitting remainder or a further prefix of it
(part_002 lines 469-489). -/
def splitLoop (measure : VBlock → Int) (contentH : Int) (rem : VBlock) :
    List VItem × Int :=
  if measure rem ≤ contentH then ([VItem.vmark, VItem.vblock rem], measure rem)
  else
    let k := findSplitPoint measure rem contentH
    if _hk : 0 < k ∧ k < (rem.content.length : Int) then
      let out := splitLoop measure contentH (suffixB rem k.toNat)
      (VItem.vmark :: VItem.vblock (prefixB rem k.toNat) :: out.1, out.2)
    else ([VItem.vmark, VItem.vblock rem], measure rem)
termination_by rem.content.length
decreasing_by simp [suffixB]; omega

/-- One step of `recalculate`'s `processNode` (part_002 lines 438-497);
the state is the rebuilt sequence plus the height used on the current
page. -/
def processNode (styles : StyleReg) (measure : VBlock → Int) (contentH : Int)
    (st : List VItem × Int) (b : VBlock) : List VItem × Int :=
  if st.2 + measure b ≤ contentH then (st.1 ++ [VItem.vblock b], st.2 + measure b)
  else
    let k := findSplitPoint measure b (contentH - st.2)
    if 0 < k ∧ k < (b.content.length : Int) then
      let rem0 := suffixB b k.toNat
      let rem :=
        if isHeadingView styles b.style && hasBodyNode styles then
          { style := "body", content := rem0.content, isText := true }
        else rem0
      let out := splitLoop measure contentH rem
      (st.1 ++ [VItem.vblock (prefixB b k.toNat)] ++ out.1, out.2)
    else
      ((if 0 < st.2 then st.1 ++ [VItem.vmark] else st.1) ++ [VItem.vblock b], measure b)

/-- PaginationView.recalculate (part_002 lines 407-515): silently skips the
recomputation when the raw page height is nonpositive; otherwise removes the
old page breaks and rebuilds the sequence.  Pass 1 is modelled as an exact
marker strip; the source performs the deletions inside one forward
`descendants` traversal without mapping the recorded positions (lines
424-429), which coincides with an exact strip only when the document holds
at most one page break — statements that depend on the walk's exact input
therefore quantify over marker-free documents, where pass 1 finds nothing
to delete and the model is exact. -/
def recalcView (styles : StyleReg) (measure : VBlock → Int) (pageH mTop mBottom : Int)
    (input : List VItem) : Option (List VItem) :=
  if pageH ≤ 0 then none
  else
    some ((stripV input).foldl (processNode styles measure (pageH - mTop - mBottom)) ([], 0)).1

/-- One block per page, the shape the engines degenerate to when no content
fits: every block after the first is preceded by a page break. -/
def onePerPage : List VBlock → List VItem
  | [] => []
  | b :: rest => VItem.vblock b :: (rest.map fun x => [VItem.vmark, VItem.vblock x]).flatten

/-- A step under degenerate geometry: the block never fits, never splits,
and lands alone on a fresh page. -/
theorem processNode_degenerate (styles : StyleReg) (measure : VBlock → Int)
    (contentH : Int) (b : VBlock) (out : List VItem) (ph : Int)
    (hc : contentH ≤ 0) (hm1 : 1 ≤ measure b) (hph : 0 ≤ ph) :
    processNode styles measure contentH (out, ph) b =
      ((if 0 < ph then out ++ [VItem.vmark] else out) ++ [VItem.vblock b], measure b) := by
  have h1 : ¬ (ph + measure b ≤ contentH) := by omega
  have h5 : contentH - ph ≤ 5 := by omega
  have h2 : findSplitPoint measure b (contentH - ph) = -1 := by
    simp [findSplitPoint, h5]
  simp [processNode, h1, h2]

theorem foldProcess_degenerate (styles : StyleReg) (measure : VBlock → Int)
    (contentH : Int) (hc : contentH ≤ 0) (hm : ∀ b, 1 ≤ measure b) :
    ∀ (bs : List VBlock) (out : List VItem) (ph : Int), 0 < ph →
      ∃ ph2, 0 < ph2 ∧
        bs.foldl (processNode styles measure contentH) (out, ph) =
          (out ++ (bs.map fun x => [VItem.vmark, VItem.vblock x]).flatten, ph2) := by
  intro bs
  induction bs with
  | nil =>
      intro out ph hph
      exact ⟨ph, hph, by simp⟩
  | cons b rest ih =>
      intro out ph hph
      have hstep := processNode_degenerate styles measure contentH b out ph hc (hm b)
        (le_of_lt hph)
      rw [if_pos hph] at hstep
      obtain ⟨ph2, hph2, hfold⟩ := ih (out ++ [VItem.vmark] ++ [VItem.vblock b]) (measure b)
        (by have := hm b; omega)
      refine ⟨ph2, hph2, ?_⟩
      rw [List.foldl_cons, hstep]
      rw [show out ++ [VItem.vmark] ++ [VItem.vblock b] =
        (out ++ [VItem.vmark]) ++ [VItem.vblock b] from rfl] at hfold
      rw [hfold]
      simp

theorem stripV_map_vblock (bs : List VBlock) : stripV (bs.map VItem.vblock) = bs := by
  induction bs with
  | nil => rfl
  | cons b rest ih => simpa [stripV] using ih

/-- C9 (amended). The view-based engine refuses — silently, with no report —
only when the raw page height is nonpositive, a guard that runs before any
marker handling; when the page height is positive but the available content
height (page height minus vertical margins) is nonpositive, it proceeds
anyway on a marker-free document — where pass 1 of `recalculate` finds no
page break to delete and so leaves the sequence untouched — and places
every block after the first alone on its own page. -/
theorem geometry_guard_behavior :
    (∀ (styles : StyleReg) (measure : VBlock → Int) (pageH mTop mBottom : Int)
        (input : List VItem), pageH ≤ 0 →
        recalcView styles measure pageH mTop mBottom input = none) ∧
    (∀ (styles : StyleReg) (measure : VBlock → Int) (pageH mTop mBottom : Int)
        (bs : List VBlock), 0 < pageH → pageH - mTop - mBottom ≤ 0 →
        (∀ b, 1 ≤ measure b) →
        recalcView styles measure pageH mTop mBottom (bs.map VItem.vblock) =
          some (onePerPage bs)) := by
  constructor
  · intro _ _ _ _ _ _ h
    simp [recalcView, h]
  · intro styles measure pageH mT mB bs hpos hdeg hm
    unfold recalcView
    rw [if_neg (by omega), stripV_map_vblock]
    congr 1
    cases bs with
    | nil => simp [onePerPage]
    | cons b rest =>
        have hstep := processNode_degenerate styles measure (pageH - mT - mB) b [] 0 hdeg
          (hm b) le_rfl
        rw [if_neg (lt_irrefl 0)] at hstep
        simp only [List.nil_append] at hstep
        obtain ⟨ph2, _, hfold⟩ := foldProcess_degenerate styles measure (pageH - mT - mB)
          hdeg hm rest [VItem.vblock b] (measure b) (by have := hm b; omega)
        rw [List.foldl_cons, hstep, hfold]
        simp [onePerPage]

/-- Witness for `geometry_guard_behavior`: a zero page height is refused,
and a marker-free document on a 100-unit page with 60-unit top and bottom
margins is paginated one block per page. -/
theorem geometry_guard_behavior_witness :
    recalcView [] (fun _ => 1) 0 0 0 [] = none ∧
    recalcView [("body", { key := "body" })] (fun _ => 10) 100 60 60
        ([⟨"body", [], true⟩, ⟨"petit", [], true⟩].map VItem.vblock) =
      some (onePerPage [⟨"body", [], true⟩, ⟨"petit", [], true⟩]) :=
  ⟨geometry_guard_behavior.1 [] (fun _ => 1) 0 0 0 [] (by decide),
   geometry_guard_behavior.2 [("body", { key := "body" })] (fun _ => 10) 100 60 60
     [⟨"body", [], true⟩, ⟨"petit", [], true⟩]
     (by decide) (by decide) (fun _ => by norm_num)⟩

/-- A whitespace content unit in the sense of the split snap: a space or a
newline. -/
def wsChar (c : Char) : Prop := c = ' ' ∨ c = '\n'

instance (c : Char) : Decidable (wsChar c) := by
  unfold wsChar
  infer_instance

theorem lastIdxOf_lt_length (c : Char) : ∀ l : List Char, lastIdxOf c l < (l.length : Int) := by
  intro l
  induction l with
  | nil => simp [lastIdxOf]
  | cons a rest ih =>
      simp only [lastIdxOf, List.length_cons]
      split
      · push_cast
        omega
      · split <;> (push_cast; omega)

theorem lastIdxOf_get (c : Char) :
    ∀ l : List Char, 0 ≤ lastIdxOf c l → l.get? (lastIdxOf c l).toNat = some c := by
  intro l
  induction l with
  | nil => simp [lastIdxOf]
  | cons a rest ih =>
      intro h
      simp only [lastIdxOf] at h ⊢
      split at h
      · rename_i hr
        rw [if_pos hr]
        have ht : (lastIdxOf c rest + 1).toNat = (lastIdxOf c rest).toNat + 1 := by omega
        rw [ht]
        simpa using ih hr
      · rename_i hr
        split at h
        · rename_i hac
          rw [if_neg hr, if_pos hac]
          simpa using beq_iff_eq.mp hac
        · omega

theorem lastIdxOf_none_after (c : Char) :
    ∀ (l : List Char) (j : Nat), lastIdxOf c l < (j : Int) → l.get? j ≠ some c := by
  intro l
  induction l with
  | nil => simp
  | cons a rest ih =>
      intro j h
      simp only [lastIdxOf] at h
      cases j with
      | zero =>
          split at h
          · omega
          · split at h
            · omega
            · rename_i hr hac
              simp only [List.get?]
              intro hcon
              exact hac (by simpa using hcon)
      | succ j2 =>
          simp only [List.get?]
          split at h
          · exact ih j2 (by push_cast at h ⊢; omega)
          · have hlt : lastIdxOf c rest < (j2 : Int) := by
              rename_i hr
              push_cast at h ⊢
              omega
            exact ih j2 hlt

/-- The binary-search loop only ever records a cut whose measured prefix
fits, so its result is either the initial best or such a cut. -/
theorem bsearchLoop_inv (mh : Nat → Int) (availH : Int) :
    ∀ (n low high : Nat) (best : Int), high + 1 - low ≤ n →
      (best = -1 ∨ (0 < best ∧ mh best.toNat ≤ availH)) →
      (bsearchLoop mh availH low high best = -1 ∨
        (0 < bsearchLoop mh availH low high best ∧
          mh (bsearchLoop mh availH low high best).toNat ≤ availH)) := by
  intro n
  induction n with
  | zero =>
      intro low high best hfuel hbest
      rw [bsearchLoop, if_neg (by omega)]
      exact hbest
  | succ m ih =>
      intro low high best hfuel hbest
      rw [bsearchLoop]
      split
      · rename_i hle
        split
        · rename_i hmid
          exact ih _ _ _ (by omega) hbest
        · rename_i hmid
          split
          · rename_i hfit
            refine ih _ _ _ (by omega)
              (Or.inr ⟨Int.ofNat_pos.mpr (Nat.pos_of_ne_zero hmid), ?_⟩)
            simpa using hfit
          · exact ih _ _ _ (by omega) hbest
      · exact hbest

/-- Every block emitted by the split continuation keeps the style of the
remainder it was started with. -/
theorem splitLoop_styles (measure : VBlock → Int) (contentH : Int) :
    ∀ (n : Nat) (rem : VBlock), rem.content.length ≤ n →
      ∀ x ∈ (splitLoop measure contentH rem).1,
        x = VItem.vmark ∨ ∃ vb, x = VItem.vblock vb ∧ vb.style = rem.style := by
  intro n
  induction n with
  | zero =>
      intro rem hlen x hx
      rw [splitLoop] at hx
      split at hx
      · simp only [List.mem_cons, List.not_mem_nil, or_false] at hx
        rcases hx with hx | hx
        · exact Or.inl hx
        · exact Or.inr ⟨rem, hx, rfl⟩
      · dsimp only at hx
        split at hx
        · rename_i hk
          omega
        · simp only [List.mem_cons, List.not_mem_nil, or_false] at hx
          rcases hx with hx | hx
          · exact Or.inl hx
          · exact Or.inr ⟨rem, hx, rfl⟩
  | succ m ih =>
      intro rem hlen x hx
      rw [splitLoop] at hx
      split at hx
      · simp only [List.mem_cons, List.not_mem_nil, or_false] at hx
        rcases hx with hx | hx
        · exact Or.inl hx
        · exact Or.inr ⟨rem, hx, rfl⟩
      · dsimp only at hx
        split at hx
        · rename_i hk
          simp only [List.mem_cons] at hx
          rcases hx with hx | hx | hx
          · exact Or.inl hx
          · exact Or.inr ⟨_, hx, rfl⟩
          · have := ih (suffixB rem (findSplitPoint measure rem contentH).toNat)
              (by simp [suffixB]; omega) x hx
            rcases this with h1 | ⟨vb, hvb, hst⟩
            · exact Or.inl h1
            · exact Or.inr ⟨vb, hvb, by simpa [suffixB] using hst⟩
        · simp only [List.mem_cons, List.not_mem_nil, or_false] at hx
          rcases hx with hx | hx
          · exact Or.inl hx
          · exact Or.inr ⟨rem, hx, rfl⟩

theorem get?_take_eq (l : List Char) :
    ∀ (n j : Nat), j < n → (l.take n).get? j = l.get? j := by
  induction l with
  | nil => intro n j _; simp
  | cons a tl ih =>
      intro n j hj
      cases n with
      | zero => omega
      | succ m =>
          cases j with
          | zero => simp
          | succ j2 => simpa using ih m j2 (by omega)

/-- The raw binary-search cut of `findSplitPoint` either fails or yields a
prefix whose measured height fits. -/
theorem bestCharSplit_inv (measure : VBlock → Int) (b : VBlock) (availH : Int) :
    bestCharSplit measure b availH = -1 ∨
      (0 < bestCharSplit measure b availH ∧
        measure (prefixB b (bestCharSplit measure b availH).toNat) ≤ availH) := by
  unfold bestCharSplit
  exact bsearchLoop_inv _ availH (b.content.length + 1) 0 b.content.length (-1)
    (by omega) (Or.inl rfl)

/-- A positive split point comes out of the snap of a positive raw cut. -/
theorem findSplitPoint_eq_snap (measure : VBlock → Int) (b : VBlock) (availH : Int)
    (h : 0 < findSplitPoint measure b availH) :
    0 < bestCharSplit measure b availH ∧
    findSplitPoint measure b availH = snapSplit b.content (bestCharSplit measure b availH) := by
  unfold findSplitPoint at h ⊢
  split at h
  · exact absurd h (by norm_num)
  · rename_i hguard
    dsimp only at h
    rw [if_neg hguard]
    dsimp only
    split at h
    · exact absurd h (by norm_num)
    · rename_i hbest
      rw [if_neg hbest]
      exact ⟨by omega, rfl⟩

/-- Properties of the snap: the snapped cut is positive, no larger than the
raw cut, and either lands immediately after the last whitespace of the
sliced text (with no whitespace between it and the raw cut) or, when the
slice has no whitespace at a positive index, equals the raw cut. -/
theorem snapSplit_spec (text : List Char) (best : Int) (hb : 0 < best) :
    (0 < snapSplit text best ∧ (snapSplit text best).toNat ≤ best.toNat) ∧
    ((∃ c, wsChar c ∧ text.get? ((snapSplit text best).toNat - 1) = some c ∧
        ∀ (j : Nat) (d : Char), (snapSplit text best).toNat ≤ j → (j : Int) < best →
          text.get? j = some d → ¬ wsChar d) ∨
      (snapSplit text best = best ∧
        ∀ (j : Nat) (d : Char), 0 < j → (j : Int) < best →
          text.get? j = some d → ¬ wsChar d)) := by
  have hlen : (text.take best.toNat).length ≤ best.toNat := by
    simp [List.length_take]
  have hsp : lastIdxOf ' ' (text.take best.toNat) < ((text.take best.toNat).length : Int) :=
    lastIdxOf_lt_length _ _
  have hnl : lastIdxOf '\n' (text.take best.toNat) < ((text.take best.toNat).length : Int) :=
    lastIdxOf_lt_length _ _
  simp only [snapSplit]
  by_cases hbpos :
      0 < max (lastIdxOf ' ' (text.take best.toNat)) (lastIdxOf '\n' (text.take best.toNat))
  · rw [if_pos hbpos]
    have hmaxlt :
        max (lastIdxOf ' ' (text.take best.toNat)) (lastIdxOf '\n' (text.take best.toNat)) <
          ((text.take best.toNat).length : Int) := by
      rcases max_choice (lastIdxOf ' ' (text.take best.toNat))
        (lastIdxOf '\n' (text.take best.toNat)) with h | h <;> rw [h]
      · exact hsp
      · exact hnl
    refine ⟨⟨by omega, by omega⟩, Or.inl ?_⟩
    obtain ⟨c, hc, hgets⟩ : ∃ c, wsChar c ∧
        (text.take best.toNat).get?
          (max (lastIdxOf ' ' (text.take best.toNat))
            (lastIdxOf '\n' (text.take best.toNat))).toNat = some c := by
      rcases max_choice (lastIdxOf ' ' (text.take best.toNat))
        (lastIdxOf '\n' (text.take best.toNat)) with h | h
      · refine ⟨' ', Or.inl rfl, ?_⟩
        rw [h]
        exact lastIdxOf_get _ _ (by omega)
      · refine ⟨'\n', Or.inr rfl, ?_⟩
        rw [h]
        exact lastIdxOf_get _ _ (by omega)
    refine ⟨c, hc, ?_, ?_⟩
    · have hidx :
          ((max (lastIdxOf ' ' (text.take best.toNat))
            (lastIdxOf '\n' (text.take best.toNat))) + 1).toNat - 1 =
          (max (lastIdxOf ' ' (text.take best.toNat))
            (lastIdxOf '\n' (text.take best.toNat))).toNat := by omega
      rw [hidx]
      rw [← get?_take_eq text best.toNat _ (by omega)]
      exact hgets
    · intro j d hj hjb hget hws
      have hjlt : j < best.toNat := by omega
      have hgt : (text.take best.toNat).get? j = some d := by
        rw [get?_take_eq text best.toNat j hjlt]
        exact hget
      have hspj : lastIdxOf ' ' (text.take best.toNat) < (j : Int) := by omega
      have hnlj : lastIdxOf '\n' (text.take best.toNat) < (j : Int) := by omega
      rcases hws with rfl | rfl
      · exact lastIdxOf_none_after ' ' _ j hspj hgt
      · exact lastIdxOf_none_after '\n' _ j hnlj hgt
  · rw [if_neg hbpos, if_pos hb]
    refine ⟨⟨hb, le_rfl⟩, Or.inr ⟨rfl, ?_⟩⟩
    intro j d hj hjb hget hws
    have hjlt : j < best.toNat := by omega
    have hgt : (text.take best.toNat).get? j = some d := by
      rw [get?_take_eq text best.toNat j hjlt]
      exact hget
    have hspj : lastIdxOf ' ' (text.take best.toNat) < (j : Int) := by omega
    have hnlj : lastIdxOf '\n' (text.take best.toNat) < (j : Int) := by omega
    rcases hws with rfl | rfl
    · exact lastIdxOf_none_after ' ' _ j hspj hgt
    · exact lastIdxOf_none_after '\n' _ j hnlj hgt

theorem findSplitPoint_fits (measure : VBlock → Int) (b : VBlock) (availH : Int)
    (hmono : ∀ i j : Nat, i ≤ j → measure (prefixB b i) ≤ measure (prefixB b j))
    (h : 0 < findSplitPoint measure b availH) :
    measure (prefixB b (findSplitPoint measure b availH).toNat) ≤ availH := by
  obtain ⟨hbest, heq⟩ := findSplitPoint_eq_snap measure b availH h
  rcases bestCharSplit_inv measure b availH with h1 | ⟨h2, h3⟩
  · omega
  · obtain ⟨⟨hpos, hle⟩, _⟩ := snapSplit_spec b.content (bestCharSplit measure b availH) hbest
    rw [heq]
    exact le_trans (hmono _ _ hle) h3

theorem findSplitPoint_word_boundary (measure : VBlock → Int) (b : VBlock) (availH : Int)
    (h : 0 < findSplitPoint measure b availH) :
    (∃ c, wsChar c ∧
        b.content.get? ((findSplitPoint measure b availH).toNat - 1) = some c ∧
        ∀ (j : Nat) (d : Char), (findSplitPoint measure b availH).toNat ≤ j →
          (j : Int) < bestCharSplit measure b availH →
          b.content.get? j = some d → ¬ wsChar d) ∨
    (findSplitPoint measure b availH = bestCharSplit measure b availH ∧
        ∀ (j : Nat) (d : Char), 0 < j →
          (j : Int) < bestCharSplit measure b availH →
          b.content.get? j = some d → ¬ wsChar d) := by
  obtain ⟨hbest, heq⟩ := findSplitPoint_eq_snap measure b availH h
  obtain ⟨_, hcase⟩ := snapSplit_spec b.content (bestCharSplit measure b availH) hbest
  rw [heq]
  exact hcase

theorem processNode_demotes (styles : StyleReg) (measure : VBlock → Int) (contentH : Int)
    (st : List VItem × Int) (b : VBlock)
    (hfit : ¬ (st.2 + measure b ≤ contentH))
    (hk1 : 0 < findSplitPoint measure b (contentH - st.2))
    (hk2 : findSplitPoint measure b (contentH - st.2) < (b.content.length : Int))
    (hhead : isHeadingView styles b.style = true)
    (hbody : hasBodyNode styles = true) :
    ∃ tail,
      (processNode styles measure contentH st b).1 =
        st.1 ++ VItem.vblock
          (prefixB b (findSplitPoint measure b (contentH - st.2)).toNat) :: tail ∧
      ∀ x ∈ tail, x = VItem.vmark ∨ ∃ vb, x = VItem.vblock vb ∧ vb.style = "body" := by
  simp only [processNode]
  rw [if_neg hfit]
  rw [if_pos ⟨hk1, hk2⟩]
  simp only [hhead, hbody, Bool.and_self, if_true]
  refine ⟨(splitLoop measure contentH
    ⟨"body", (suffixB b (findSplitPoint measure b (contentH - st.2)).toNat).content,
      true⟩).1, by simp, ?_⟩
  intro x hx
  have := splitLoop_styles measure contentH _ _ le_rfl x hx
  simpa using this

/-- C7. When a block does not fit in the remaining space, `findSplitPoint`
binary-searches a cut over content units whose measured prefix fits that
space (for a prefix-monotone measure); the cut is snapped back to just
after the last whitespace of the sliced text when the slice has one at a
positive index — leaving no whitespace, hence no word boundary, between
the snapped and the raw cut — and when the split block is heading-class
(and a `body` node type exists) the remainder carried to the next pages is
demoted to the `body` style. -/
theorem split_point_spec :
    (∀ (measure : VBlock → Int) (b : VBlock) (availH : Int),
        (∀ i j : Nat, i ≤ j → measure (prefixB b i) ≤ measure (prefixB b j)) →
        0 < findSplitPoint measure b availH →
        measure (prefixB b (findSplitPoint measure b availH).toNat) ≤ availH) ∧
    (∀ (measure : VBlock → Int) (b : VBlock) (availH : Int),
        0 < findSplitPoint measure b availH →
        (∃ c, wsChar c ∧
            b.content.get? ((findSplitPoint measure b availH).toNat - 1) = some c ∧
            ∀ (j : Nat) (d : Char), (findSplitPoint measure b availH).toNat ≤ j →
              (j : Int) < bestCharSplit measure b availH →
              b.content.get? j = some d → ¬ wsChar d) ∨
        (findSplitPoint measure b availH = bestCharSplit measure b availH ∧
            ∀ (j : Nat) (d : Char), 0 < j →
              (j : Int) < bestCharSplit measure b availH →
              b.content.get? j = some d → ¬ wsChar d)) ∧
    (∀ (styles : StyleReg) (measure : VBlock → Int) (contentH : Int)
        (st : List VItem × Int) (b : VBlock),
        ¬ (st.2 + measure b ≤ contentH) →
        0 < findSplitPoint measure b (contentH - st.2) →
        findSplitPoint measure b (contentH - st.2) < (b.content.length : Int) →
        isHeadingView styles b.style = true →
        hasBodyNode styles = true →
        ∃ tail,
          (processNode styles measure contentH st b).1 =
            st.1 ++ VItem.vblock
              (prefixB b (findSplitPoint measure b (contentH - st.2)).toNat) :: tail ∧
          ∀ x ∈ tail, x = VItem.vmark ∨ ∃ vb, x = VItem.vblock vb ∧ vb.style = "body") :=
  ⟨findSplitPoint_fits, findSplitPoint_word_boundary, processNode_demotes⟩

/-- A length-proportional measure, a five-unit heading block, and a registry
with a demotion target, used to witness the split specification. -/
def measureDemo : VBlock → Int := fun vb => 30 * (vb.content.length : Int)

def blockDemo : VBlock := ⟨"h1", "aa bb".toList, true⟩

def stylesDemo : StyleReg :=
  [("h1", { key := "heading1", level := some 1 }), ("body", { key := "body" })]

/-- Witness for `split_point_spec`: the concrete block splits after the
whitespace at offset 3, the prefix fits, and the remainder is demoted. -/
theorem split_point_spec_witness :
    measureDemo (prefixB blockDemo (findSplitPoint measureDemo blockDemo 100).toNat) ≤ 100 ∧
    ((∃ c, wsChar c ∧
        blockDemo.content.get? ((findSplitPoint measureDemo blockDemo 100).toNat - 1) = some c ∧
        ∀ (j : Nat) (d : Char), (findSplitPoint measureDemo blockDemo 100).toNat ≤ j →
          (j : Int) < bestCharSplit measureDemo blockDemo 100 →
          blockDemo.content.get? j = some d → ¬ wsChar d) ∨
      (findSplitPoint measureDemo blockDemo 100 = bestCharSplit measureDemo blockDemo 100 ∧
        ∀ (j : Nat) (d : Char), 0 < j →
          (j : Int) < bestCharSplit measureDemo blockDemo 100 →
          blockDemo.content.get? j = some d → ¬ wsChar d)) ∧
    (∃ tail,
      (processNode stylesDemo measureDemo 100 ([], 0) blockDemo).1 =
        VItem.vblock (prefixB blockDemo
          (findSplitPoint measureDemo blockDemo 100).toNat) :: tail ∧
      ∀ x ∈ tail, x = VItem.vmark ∨ ∃ vb, x = VItem.vblock vb ∧ vb.style = "body") := by
  have hmono : ∀ i j : Nat, i ≤ j →
      measureDemo (prefixB blockDemo i) ≤ measureDemo (prefixB blockDemo j) := by
    intro i j hij
    simp only [measureDemo, prefixB, List.length_take]
    omega
  have hfsp : 0 < findSplitPoint measureDemo blockDemo 100 := by
    simp [measureDemo, blockDemo, findSplitPoint, bestCharSplit, bsearchLoop, snapSplit,
      lastIdxOf, prefixB]
  have hfsp2 : findSplitPoint measureDemo blockDemo 100 < (blockDemo.content.length : Int) := by
    simp [measureDemo, blockDemo, findSplitPoint, bestCharSplit, bsearchLoop, snapSplit,
      lastIdxOf, prefixB]
  exact ⟨split_point_spec.1 measureDemo blockDemo 100 hmono hfsp,
    split_point_spec.2.1 measureDemo blockDemo 100 hfsp,
    split_point_spec.2.2 stylesDemo measureDemo 100 ([], 0) blockDemo (by decide)
      hfsp hfsp2 (by decide) (by decide)⟩

/-- C9 (counterexample). With page height 100 and margins 60/60 the
available content height is -20, yet pagination proceeds and emits a
marker instead of refusing. -/
theorem degenerate_geometry_proceeds :
    ((100 : Int) - 60 - 60 ≤ 0) ∧
    recalcView [("body", { key := "body" })] (fun _ => 10) 100 60 60
        [VItem.vblock ⟨"body", [], true⟩, VItem.vblock ⟨"body", [], true⟩] =
      some [VItem.vblock ⟨"body", [], true⟩, VItem.vmark,
        VItem.vblock ⟨"body", [], true⟩] := by
  constructor
  · decide
  · rfl

/-! ## Inline formatter escaping

Embeds lines 56-62 of `src/services/xmlSerializer.ts`: the tail of
`processInlineFormatting`, which strips non-neutral tags from the content
string and then applies the three escape replacements.  Each JS global
regex replace is one full left-to-right pass, modelled as a character-list
transducer. -/

/-- The three neutral tag names preserved by the tag-aware passes. -/
def neutralTags : List (List Char) := ["bold".toList, "italic".toList, "xref".toList]

/-- Lookahead of `\/?(bold|italic|xref)`: the characters after a `<` begin
with an optional slash followed by a neutral tag name. -/
def allowedAfterLt (rest : List Char) : Bool :=
  match rest with
  | '/' :: rest2 => neutralTags.any fun t => beginsWith t rest2
  | _ => neutralTags.any fun t => beginsWith t rest

/-- The tag-stripping pass `replace(/<(?!\/?(bold|italic|xref))[^>]*>/g, '')`
(line 57); the boolean is true while inside a matched non-neutral tag. -/
def stripOtherTags : Bool → List Char → List Char
  | _, [] => []
  | true, c :: rest =>
      if c == '>' then stripOtherTags false rest else stripOtherTags true rest
  | false, c :: rest =>
      if c == '<' && !allowedAfterLt rest && rest.contains '>' then
        stripOtherTags true rest
      else c :: stripOtherTags false rest

/-- The five entity heads of the negative lookahead on `&`. -/
def entityHeads : List (List Char) :=
  ["amp;".toList, "lt;".toList, "gt;".toList, "quot;".toList, "apos;".toList]

/-- Escape pass `replace(/&(?!(amp|lt|gt|quot|apos);)/g, '&amp;')` (line 60). -/
def escAmp : List Char → List Char
  | [] => []
  | c :: rest =>
      if c == '&' && !(entityHeads.any fun e => beginsWith e rest) then
        '&' :: 'a' :: 'm' :: 'p' :: ';' :: escAmp rest
      else c :: escAmp rest

/-- Escape pass `replace(/<(?!\/?(bold|italic|xref))/g, '&lt;')` (line 61). -/
def escLt : List Char → List Char
  | [] => []
  | c :: rest =>
      if c == '<' && !allowedAfterLt rest then
        '&' :: 'l' :: 't' :: ';' :: escLt rest
      else c :: escLt rest

/-- Escape pass `replace(/>/g, '&gt;')` (line 62). -/
def escGt : List Char → List Char
  | [] => []
  | c :: rest =>
      if c == '>' then '&' :: 'g' :: 't' :: ';' :: escGt rest
      else c :: escGt rest

/-- Lines 57-62 of processInlineFormatting: strip non-neutral tags, then
apply the three escape passes in source order. -/
def finalizeInline (xmlContent : List Char) : List Char :=
  escGt (escLt (escAmp (stripOtherTags false xmlContent)))

/-- C6. The escaping stage is not tag-aware for `>`: it escapes every `>`,
including the ones closing the neutral tags it is meant to preserve, so
`<bold>x</bold>` leaves the stage as `<bold&gt;x</bold&gt;`; and the double
quote, one of the five XML-reserved characters, is not escaped at all. -/
theorem escape_breaks_neutral_tags :
    finalizeInline "<bold>x</bold>".toList = "<bold&gt;x</bold&gt;".toList ∧
    finalizeInline "a\"b'c".toList = "a\"b'c".toList := by
  constructor <;> rfl

/-! ## XML fragment trees

A nested element node as built by `buildXmlFragmentTree`
(`src/services/xmlSerializer.ts`): a tag, attribute pairs, either inline
content or children. -/

inductive LNode where
  | node (tag : String) (attrs : List (String × String)) (content : String)
      (children : List LNode)

instance : Inhabited LNode := ⟨LNode.node "" [] "" []⟩

def LNode.tagOf : LNode → String
  | .node t _ _ _ => t

def LNode.attrsOf : LNode → List (String × String)
  | .node _ a _ _ => a

def LNode.contentOf : LNode → String
  | .node _ _ s _ => s

def LNode.childrenOf : LNode → List LNode
  | .node _ _ _ c => c

/-- Zero-width characters removed by `escapeXml` before escaping: the range
U+200B to U+200D plus U+FEFF. -/
def isZeroWidth (c : Char) : Bool :=
  (0x200B ≤ c.toNat && c.toNat ≤ 0x200D) || c.toNat == 0xFEFF

/-- One global single-character regex replace. -/
def replaceAllChar (c : Char) (s : List Char) (l : List Char) : List Char :=
  l.flatMap fun x => if x == c then s else [x]

/-- escapeXml (xmlSerializer.ts lines 3-13): strip zero-width characters,
then the five sequential entity replacements. -/
def escapeXml (text : List Char) : List Char :=
  replaceAllChar '\'' "&apos;".toList
    (replaceAllChar '"' "&quot;".toList
      (replaceAllChar '>' "&gt;".toList
        (replaceAllChar '<' "&lt;".toList
          (replaceAllChar '&' "&amp;".toList
            (text.filter fun c => !isZeroWidth c)))))

/-! ## Table projection -/

/-- A table cell, from `src/types.ts` (`interface TableCell`). -/
structure TableCell where
  content : String
  colspan : Option Nat := none
  rowspan : Option Nat := none
  isHidden : Bool := false
  deriving Repr, DecidableEq

/-- Table payload, from `src/types.ts` (`interface TableData`). -/
structure TableData where
  caption : String
  rows : List (List TableCell)
  deriving Repr, DecidableEq

/-- The table branch of buildXmlFragmentTree (xmlSerializer.ts lines
171-207), applied to an already-parsed `TableData`; `f` stands for
`processInlineFormatting` with the ambient footnote map, `tagName` and
`attrs` for `style[tagKey]` and `style.attributes`.  Every cell of
`rows[0]` becomes a `th` and every cell of the remaining rows a `td`; the
cell's `colspan`, `rowspan` and `isHidden` fields are not consulted. -/
def buildTableNode (f : String → String) (tagName : String)
    (attrs : List (String × String)) (t : TableData) : LNode :=
  LNode.node tagName attrs ""
    [LNode.node "caption" [] ""
      [LNode.node "p" [] (String.mk (escapeXml t.caption.toList)) []],
     LNode.node "table" [] ""
      [LNode.node "thead" [] ""
        [LNode.node "tr" [] ""
          ((t.rows.headD []).map fun cell =>
            LNode.node "th" [] "" [LNode.node "p" [] (f cell.content) []])],
       LNode.node "tbody" [] ""
        ((t.rows.drop 1).map fun row =>
          LNode.node "tr" [] ""
            (row.map fun cell =>
              LNode.node "td" [] "" [LNode.node "p" [] (f cell.content) []]))]]

/-- The header cells of a projected table node: children of the `tr` inside
`thead` inside `table`. -/
def theadCells (n : LNode) : List LNode :=
  (((n.childrenOf.getD 1 default).childrenOf.getD 0 default).childrenOf.getD 0
    default).childrenOf

/-- The 2-by-2 scenario of the claim: cell (0,0) spans two columns and cell
(0,1) is a hidden placeholder. -/
def tableDemo : TableData :=
  { caption := "t",
    rows := [[{ content := "A", colspan := some 2 }, { content := "", isHidden := true }],
             [{ content := "c" }, { content := "d" }]] }

/-- C8 (amended). The serializer emits one header cell per entry of the
first row — hidden placeholder cells included — with empty attributes, so
no colspan is carried onto any cell. -/
theorem thead_one_cell_per_entry (f : String → String) (tagName : String)
    (attrs : List (String × String)) (cap : String) (r0 : List TableCell)
    (rest : List (List TableCell)) :
    theadCells (buildTableNode f tagName attrs { caption := cap, rows := r0 :: rest }) =
      r0.map fun cell =>
        LNode.node "th" [] "" [LNode.node "p" [] (f cell.content) []] := by
  rfl

/-- C8 (counterexample). On the 2-by-2 scenario the header row has two
cells, not one, and neither carries a colspan attribute. -/
theorem table_hidden_cells_emitted :
    ¬ ((theadCells (buildTableNode id "table-wrap" [] tableDemo)).length = 1) ∧
    (theadCells (buildTableNode id "table-wrap" [] tableDemo)).length = 2 ∧
    (theadCells (buildTableNode id "table-wrap" [] tableDemo)).map LNode.attrsOf =
      [[], []] := by
  refine ⟨by decide, by decide, ?_⟩
  rfl

/-! ## List tree builder

Embeds `generateListTree` (`src/services/xmlSerializer.ts` lines 90-139).
The source keeps a stack of mutable list-node objects that are shared with
their parents' children arrays; here the stack holds frames (open lists),
and a frame is folded into its parent when it is popped — between a push
and the matching pop the parent frame gains no children, so the deferred
attachment lands on the same last list-item the source mutates. -/

/-- List-attribute payload, from `src/types.ts` (`interface
ListAttributes`). -/
structure ListAttrs where
  styleAttr : Option String := none
  start : Option Int := none
  reversed : Bool := false
  deriving Repr, DecidableEq

/-- A list-run block: style key, rich content, indent level (the source
reads `block.level || 0`, so the default is 0), and the optional list
attributes. -/
structure LBlock where
  style : String
  content : String
  level : Int := 0
  listAttrs : Option ListAttrs := none
  deriving Repr, DecidableEq

/-- getListAttributes (xmlSerializer.ts lines 67-87); the truthiness tests
of the source make an empty `style` string, a zero `start` and a `start`
of 1 all contribute nothing. -/
def getListAttributes (b : LBlock) : List (String × String) :=
  let listType := if b.style == "ordered_list_item" then "order" else "bullet"
  let specUses :=
    (match b.listAttrs with
     | some la =>
         (match la.styleAttr with
          | some s => if s ≠ "" then [s] else []
          | none => []) ++
         (if la.reversed then ["reversed"] else []) ++
         (match la.start with
          | some n => if n ≠ 0 ∧ n ≠ 1 then ["start-at-" ++ toString n] else []
          | none => [])
     | none => [])
  ("list-type", listType) ::
    (if specUses ≠ [] then [("specific-use", String.intercalate " " specUses)] else [])

/-- Append a child to a node's children array. -/
def addChild (n c : LNode) : LNode :=
  match n with
  | .node t a s ch => .node t a s (ch ++ [c])

/-- Push a node into the last element of a children array when one exists
(`lastListItem.children.push(newList)`), else directly
(`parentList.children.push(newList)`). -/
def appendIntoLast (ns : List LNode) (child : LNode) : List LNode :=
  match ns with
  | [] => [child]
  | [x] => [addChild x child]
  | x :: rest => x :: appendIntoLast rest child

/-- An open list on the stack: its level, its rendered attributes, and the
children accumulated so far. -/
structure LFrame where
  level : Int
  attrs : List (String × String)
  children : List LNode

/-- Close an open list into its node. -/
def closeFrame (fr : LFrame) : LNode := LNode.node "list" fr.attrs "" fr.children

/-- Pop the top frame into its parent. -/
def popFrame (child parent : LFrame) : LFrame :=
  { parent with children := appendIntoLast parent.children (closeFrame child) }

/-- The `while (level < parentList.level) listStack.pop()` loop; the stack
is the top frame plus the frames below it, and the synthetic root (level
-1) is never popped for real levels. -/
def popWhile (level : Int) : LFrame → List LFrame → LFrame × List LFrame
  | top, [] => (top, [])
  | top, r :: rs =>
      if level < top.level then popWhile level (popFrame top r) rs
      else (top, r :: rs)

/-- The body of the `listBlocks.forEach` loop: pop to the block's level,
then either open a new nested list holding the fresh list-item (when the
level strictly increases) or append the list-item to the current list. -/
def stepList (f : String → String) (st : LFrame × List LFrame) (b : LBlock) :
    LFrame × List LFrame :=
  let popped := popWhile b.level st.1 st.2
  let item := LNode.node "list-item" [] "" [LNode.node "p" [] (f b.content) []]
  if popped.1.level < b.level then
    (⟨b.level, getListAttributes b, [item]⟩, popped.1 :: popped.2)
  else
    ({ popped.1 with children := popped.1.children ++ [item] }, popped.2)

/-- Fold all remaining open frames back down to the root. -/
def closeAll : LFrame → List LFrame → LFrame
  | top, [] => top
  | top, r :: rs => closeAll (popFrame top r) rs

/-- generateListTree (xmlSerializer.ts lines 90-139): the synthetic root
list carries level -1 and the first block's attributes; `f` stands for
`processInlineFormatting` with the ambient footnote map. -/
def generateListTree (f : String → String) (listBlocks : List LBlock) : List LNode :=
  match listBlocks with
  | [] => []
  | b0 :: _ =>
      let root : LFrame := ⟨-1, getListAttributes b0, []⟩
      let final := listBlocks.foldl (stepList f) (root, [])
      [closeFrame (closeAll final.1 final.2)]

/-- C2 (amended). A run with levels [0,0,1,1,0] produces exactly one root
list node whose single direct child is a further list node; that inner
list's direct children are exactly three list-items: the first wraps no
sub-list, the second additionally wraps the nested two-item list, and the
third wraps no sub-list. -/
theorem listTree_shape (f : String → String) (b1 b2 b3 b4 b5 : LBlock)
    (h1 : b1.level = 0) (h2 : b2.level = 0) (h3 : b3.level = 1) (h4 : b4.level = 1)
    (h5 : b5.level = 0) :
    generateListTree f [b1, b2, b3, b4, b5] =
      [LNode.node "list" (getListAttributes b1) ""
        [LNode.node "list" (getListAttributes b1) ""
          [LNode.node "list-item" [] "" [LNode.node "p" [] (f b1.content) []],
           LNode.node "list-item" [] ""
             [LNode.node "p" [] (f b2.content) [],
              LNode.node "list" (getListAttributes b3) ""
                [LNode.node "list-item" [] "" [LNode.node "p" [] (f b3.content) []],
                 LNode.node "list-item" [] "" [LNode.node "p" [] (f b4.content) []]]],
           LNode.node "list-item" [] "" [LNode.node "p" [] (f b5.content) []]]]] := by
  simp [generateListTree, stepList, popWhile, popFrame, closeAll, closeFrame,
    appendIntoLast, addChild, h1, h2, h3, h4, h5]

/-- The levels [0,0,1,1,0] run on concrete unordered-list blocks. -/
def listDemoBlocks : List LBlock :=
  [⟨"unordered_list_item", "a", 0, none⟩, ⟨"unordered_list_item", "b", 0, none⟩,
   ⟨"unordered_list_item", "c", 1, none⟩, ⟨"unordered_list_item", "d", 1, none⟩,
   ⟨"unordered_list_item", "e", 0, none⟩]

/-- Witness for `listTree_shape` on the concrete run. -/
theorem listTree_shape_witness :
    generateListTree id listDemoBlocks =
      [LNode.node "list" (getListAttributes ⟨"unordered_list_item", "a", 0, none⟩) ""
        [LNode.node "list" (getListAttributes ⟨"unordered_list_item", "a", 0, none⟩) ""
          [LNode.node "list-item" [] "" [LNode.node "p" [] (id "a") []],
           LNode.node "list-item" [] ""
             [LNode.node "p" [] (id "b") [],
              LNode.node "list" (getListAttributes ⟨"unordered_list_item", "c", 1, none⟩) ""
                [LNode.node "list-item" [] "" [LNode.node "p" [] (id "c") []],
                 LNode.node "list-item" [] "" [LNode.node "p" [] (id "d") []]]],
           LNode.node "list-item" [] "" [LNode.node "p" [] (id "e") []]]]] :=
  listTree_shape id _ _ _ _ _ rfl rfl rfl rfl rfl

/-- C2 (counterexample). On the [0,0,1,1,0] run the root list's direct
children are not three list-items: there is exactly one direct child and it
is another list node. -/
theorem listTree_root_not_items :
    ((generateListTree id listDemoBlocks).getD 0 default).childrenOf.map LNode.tagOf
      = ["list"] ∧
    ¬ (((generateListTree id listDemoBlocks).getD 0 default).childrenOf.map LNode.tagOf
      = ["list-item", "list-item", "list-item"]) := by
  constructor
  · rfl
  · decide

/-! ## Footnote collection and numbering

Embeds the footnote side channel of `processInlineFormatting`
(xmlSerializer.ts lines 15-54) and the partition order of `generateJatsXml`
(lines 330-368).  A block's rich content is modelled as the parsed inline
sequence the DOM traversal sees: text runs and `sup[data-footnote-id]`
references (for table blocks, the concatenation of the cell contents in
traversal order).  Blocks whose table or image payload fails to parse are
skipped together with their footnotes, like blocks with unknown styles. -/

inductive Inline where
  | txt (s : String)
  | fnRef (id : String) (content : String)
  deriving Repr, DecidableEq

/-- A block as the serializer's footnote pass sees it. -/
structure SBlock where
  style : String
  inlines : List Inline
  deriving Repr, DecidableEq

/-- The footnote ids referenced by a content string, in order. -/
def refIdsOf (ins : List Inline) : List String :=
  ins.filterMap fun i =>
    match i with
    | .txt _ => none
    | .fnRef id _ => some id

/-- The key sequence of the footnote map, in insertion order. -/
def keysOf (m : List (String × String)) : List String := m.map Prod.fst

/-- JS `Map.set`: replace the value in place when the key exists (keeping
its insertion position), else append. -/
def mapSet (m : List (String × String)) (id c : String) : List (String × String) :=
  if m.any fun e => e.1 == id then
    m.map fun e => if e.1 == id then (id, c) else e
  else m ++ [(id, c)]

/-- Register every footnote reference of one content string, in order
(processInlineFormatting lines 20-33). -/
def collectFn (m : List (String × String)) : List Inline → List (String × String)
  | [] => m
  | .txt _ :: rest => collectFn m rest
  | .fnRef id c :: rest => collectFn (mapSet m id c) rest

/-- `Array.from(footnoteMap.keys()).indexOf(id)`. -/
def idxOf (id : String) : List String → Int
  | [] => -1
  | k :: rest =>
      if k == id then 0
      else if 0 ≤ idxOf id rest then idxOf id rest + 1 else -1

/-- The number stamped into one xref (lines 43-54): the 1-based position of
its id among the map keys, or nothing when the id is absent (the xref is
left empty). -/
def stampOne (keys : List String) (id : String) : Option Nat :=
  if 0 ≤ idxOf id keys then some ((idxOf id keys).toNat + 1) else none

/-- processInlineFormatting's footnote effect on one block: all sups are
registered first, then every xref is stamped against the updated map. -/
def processBlockFn (m : List (String × String)) (b : SBlock) :
    List (String × String) × List (String × Option Nat) :=
  let m2 := collectFn m b.inlines
  (m2, b.inlines.filterMap fun i =>
    match i with
    | .txt _ => none
    | .fnRef id _ => some (id, stampOne (keysOf m2) id))

/-- `isListItem` (xmlSerializer.ts line 65). -/
def isListItemKey (s : String) : Bool :=
  s == "ordered_list_item" || s == "unordered_list_item"

/-- The footnote traversal of buildXmlFragmentTree (lines 149-293): a block
whose style key is absent from the registry is skipped, except that a
contiguous run of list-styled blocks started by a present-styled one is
handed whole to generateListTree, which formats every block of the run;
the boolean tracks being inside such a run. -/
def runSerGo (styles : StyleReg) : Bool → List (String × String) → List SBlock →
    List (String × String) × List (String × Option Nat)
  | _, m, [] => (m, [])
  | inRun, m, b :: rest =>
      if isListItemKey b.style then
        if inRun || (styles.lookup b.style).isSome then
          let r1 := processBlockFn m b
          let r2 := runSerGo styles true r1.1 rest
          (r2.1, r1.2 ++ r2.2)
        else runSerGo styles false m rest
      else if (styles.lookup b.style).isSome then
        let r1 := processBlockFn m b
        let r2 := runSerGo styles false r1.1 rest
        (r2.1, r1.2 ++ r2.2)
      else runSerGo styles false m rest

/-- The matter type of a block's style, when registered. -/
def matterOf (styles : StyleReg) (s : String) : Option String :=
  match styles.lookup s with
  | some st => st.matterType
  | none => none

/-- The processing order of generateJatsXml (lines 349-366): the abstract
and front-matter partition, then the body partition, then the back
partition, each in flat order. -/
def jatsOrderBlocks (styles : StyleReg) (blocks : List SBlock) : List SBlock :=
  (blocks.filter fun b =>
    matterOf styles b.style == some "front" || b.style == "abstract" ||
      b.style == "abstract_heading") ++
  (blocks.filter fun b =>
    !(b.style == "abstract" || b.style == "abstract_heading") &&
      !(matterOf styles b.style == some "front") &&
      !(matterOf styles b.style == some "back")) ++
  (blocks.filter fun b => matterOf styles b.style == some "back")

/-- The footnote map and the stamped xref numbers of one JATS export. -/
def jatsFootnotes (styles : StyleReg) (blocks : List SBlock) :
    List (String × String) × List (String × Option Nat) :=
  runSerGo styles false [] (jatsOrderBlocks styles blocks)

/-- First-appearance insertion. -/
def insertFA (acc : List String) (id : String) : List String :=
  if id ∈ acc then acc else acc ++ [id]

/-- The first-appearance dedup of a sequence of ids. -/
def firstAppearances (ids : List String) : List String := ids.foldl insertFA []

theorem insertFA_eq (acc : List String) (id : String) :
    insertFA acc id = acc ++ (if id ∈ acc then [] else [id]) := by
  unfold insertFA
  split <;> simp

theorem foldl_insertFA_prefix : ∀ (ids acc : List String),
    ∃ new, ids.foldl insertFA acc = acc ++ new := by
  intro ids
  induction ids with
  | nil => exact fun acc => ⟨[], by simp⟩
  | cons id rest ih =>
      intro acc
      obtain ⟨new, hnew⟩ := ih (insertFA acc id)
      refine ⟨(if id ∈ acc then [] else [id]) ++ new, ?_⟩
      rw [List.foldl_cons, hnew, insertFA_eq, List.append_assoc]

theorem mem_foldl_insertFA (id : String) : ∀ (ids acc : List String),
    id ∈ ids ∨ id ∈ acc → id ∈ ids.foldl insertFA acc := by
  intro ids
  induction ids with
  | nil =>
      intro acc h
      rcases h with h | h
      · cases h
      · exact h
  | cons k rest ih =>
      intro acc h
      rw [List.foldl_cons]
      apply ih
      rcases h with h | h
      · rcases List.mem_cons.mp h with rfl | h2
        · right
          rw [insertFA_eq]
          split
          · simpa using ‹id ∈ acc›
          · simp
        · exact Or.inl h2
      · right
        rw [insertFA_eq]
        exact List.mem_append_left _ h

theorem any_fst_eq_mem_keys (m : List (String × String)) (id : String) :
    (m.any fun e => e.1 == id) = true ↔ id ∈ keysOf m := by
  simp [List.any_eq_true, keysOf, List.mem_map, beq_iff_eq]

theorem keysOf_mapSet (m : List (String × String)) (id c : String) :
    keysOf (mapSet m id c) = insertFA (keysOf m) id := by
  unfold mapSet
  rw [insertFA_eq]
  by_cases h : (m.any fun e => e.1 == id) = true
  · rw [if_pos h, if_pos ((any_fst_eq_mem_keys m id).mp h)]
    simp only [keysOf, List.map_map, List.append_nil]
    apply List.map_congr_left
    intro e _
    simp only [Function.comp]
    split
    · rename_i he
      simp [beq_iff_eq.mp he]
    · rfl
  · rw [if_neg h]
    have h2 : ¬ id ∈ keysOf m := fun hmem => h ((any_fst_eq_mem_keys m id).mpr hmem)
    rw [if_neg h2]
    simp [keysOf]

theorem collectFn_keys : ∀ (ins : List Inline) (m : List (String × String)),
    keysOf (collectFn m ins) = (refIdsOf ins).foldl insertFA (keysOf m) := by
  intro ins
  induction ins with
  | nil => intro m; simp [collectFn, refIdsOf]
  | cons i rest ih =>
      intro m
      cases i with
      | txt s => simpa [collectFn, refIdsOf] using ih m
      | fnRef id c =>
          simp only [collectFn, refIdsOf, List.filterMap_cons]
          rw [ih (mapSet m id c), keysOf_mapSet]
          rfl

theorem idxOf_nonneg_iff (id : String) : ∀ l : List String, 0 ≤ idxOf id l ↔ id ∈ l := by
  intro l
  induction l with
  | nil => simp [idxOf]
  | cons k rest ih =>
      simp only [idxOf]
      by_cases hk : (k == id) = true
      · rw [if_pos hk]
        simp [beq_iff_eq.mp hk]
      · rw [if_neg hk]
        split
        · rename_i hr
          simp only [List.mem_cons]
          exact iff_of_true (by omega) (Or.inr (ih.mp hr))
        · rename_i hr
          constructor
          · intro h
            omega
          · intro h
            rcases List.mem_cons.mp h with h1 | h1
            · exact absurd (by simp [h1]) hk
            · exact absurd (ih.mpr h1) hr

theorem idxOf_append_of_mem (id : String) :
    ∀ (l1 l2 : List String), id ∈ l1 → idxOf id (l1 ++ l2) = idxOf id l1 := by
  intro l1 l2 h
  induction l1 with
  | nil => cases h
  | cons k rest ih =>
      simp only [List.cons_append, idxOf]
      by_cases hk : (k == id) = true
      · rw [if_pos hk, if_pos hk]
      · rw [if_neg hk, if_neg hk]
        rcases List.mem_cons.mp h with h1 | h1
        · exact absurd (by simp [h1]) hk
        · have hrec := ih h1
          have hn : 0 ≤ idxOf id rest := (idxOf_nonneg_iff id rest).mpr h1
          simp only [List.append_eq]
          rw [hrec, if_pos hn]

/-- The invariant threaded through the traversal: keys only get appended,
every stamped number is the 1-based index of its id in the final key
order, and the keys evolve by first-appearance insertion of the stamped
ids. -/
def serInv (m mF : List (String × String)) (ns : List (String × Option Nat)) : Prop :=
  (∃ new, keysOf mF = keysOf m ++ new) ∧
  (∀ p ∈ ns, p.1 ∈ keysOf mF ∧ p.2 = some ((idxOf p.1 (keysOf mF)).toNat + 1)) ∧
  keysOf mF = (ns.map Prod.fst).foldl insertFA (keysOf m)

theorem serInv_rfl (m : List (String × String)) : serInv m m [] :=
  ⟨⟨[], by simp⟩, by simp, by simp⟩

theorem serInv_comp (m m2 m3 : List (String × String))
    (ns1 ns2 : List (String × Option Nat))
    (h1 : serInv m m2 ns1) (h2 : serInv m2 m3 ns2) : serInv m m3 (ns1 ++ ns2) := by
  obtain ⟨⟨n1, hk1⟩, hs1, hf1⟩ := h1
  obtain ⟨⟨n2, hk2⟩, hs2, hf2⟩ := h2
  refine ⟨⟨n1 ++ n2, by rw [hk2, hk1, List.append_assoc]⟩, ?_, ?_⟩
  · intro p hp
    rcases List.mem_append.mp hp with hp | hp
    · obtain ⟨hmem, hnum⟩ := hs1 p hp
      refine ⟨by rw [hk2]; exact List.mem_append_left _ hmem, ?_⟩
      rw [hk2, idxOf_append_of_mem p.1 (keysOf m2) n2 hmem]
      exact hnum
    · exact hs2 p hp
  · rw [List.map_append, List.foldl_append, ← hf1]
    exact hf2

theorem stamp_ids : ∀ (ins : List Inline) (keys : List String),
    (ins.filterMap fun i =>
      match i with
      | .txt _ => none
      | .fnRef id _ => some (id, stampOne keys id)).map Prod.fst = refIdsOf ins := by
  intro ins keys
  induction ins with
  | nil => rfl
  | cons i rest ih =>
      cases i with
      | txt s => simpa [refIdsOf, List.filterMap_cons] using ih
      | fnRef id c => simpa [refIdsOf, List.filterMap_cons] using ih

theorem processBlockFn_inv (m : List (String × String)) (b : SBlock) :
    serInv m (processBlockFn m b).1 (processBlockFn m b).2 := by
  unfold processBlockFn
  refine ⟨?_, ?_, ?_⟩
  · rw [collectFn_keys]
    exact foldl_insertFA_prefix _ _
  · intro p hp
    simp only [List.mem_filterMap] at hp
    obtain ⟨i, hi, hmatch⟩ := hp
    cases i with
    | txt s => simp at hmatch
    | fnRef id c =>
        have hpe : p = (id, stampOne (keysOf (collectFn m b.inlines)) id) := by
          simpa using hmatch.symm
        subst hpe
        have hid : id ∈ refIdsOf b.inlines := by
          simp only [refIdsOf, List.mem_filterMap]
          exact ⟨.fnRef id c, hi, rfl⟩
        have hidmem : id ∈ keysOf (collectFn m b.inlines) := by
          rw [collectFn_keys]
          exact mem_foldl_insertFA id _ _ (Or.inl hid)
        refine ⟨hidmem, ?_⟩
        unfold stampOne
        rw [if_pos ((idxOf_nonneg_iff _ _).mpr hidmem)]
  · rw [collectFn_keys, stamp_ids]

theorem runSerGo_inv (styles : StyleReg) :
    ∀ (blocks : List SBlock) (inRun : Bool) (m : List (String × String)),
      serInv m (runSerGo styles inRun m blocks).1 (runSerGo styles inRun m blocks).2 := by
  intro blocks
  induction blocks with
  | nil =>
      intro inRun m
      simpa [runSerGo] using serInv_rfl m
  | cons b rest ih =>
      intro inRun m
      simp only [runSerGo]
      split
      · split
        · exact serInv_comp _ _ _ _ _ (processBlockFn_inv m b) (ih true _)
        · exact ih false m
      · split
        · exact serInv_comp _ _ _ _ _ (processBlockFn_inv m b) (ih false _)
        · exact ih false m

/-- C3 (amended). Every number stamped into a footnote cross-reference of a
JATS export equals the 1-based position of its footnote id in
first-appearance order over the processed sequence — abstract/front blocks
first, then body, then back matter, skipped blocks excluded — so over that
order the numbers are gapless, strictly increasing at first appearances,
and equal for duplicate ids; the flat-sequence order of the original claim
governs only when it coincides with this partition order. -/
theorem footnote_numbers_processed_order (styles : StyleReg) (blocks : List SBlock) :
    (∀ p ∈ (jatsFootnotes styles blocks).2,
        p.2 = some ((idxOf p.1 (keysOf (jatsFootnotes styles blocks).1)).toNat + 1)) ∧
    keysOf (jatsFootnotes styles blocks).1 =
      firstAppearances (((jatsFootnotes styles blocks).2).map Prod.fst) := by
  obtain ⟨_, hs, hf⟩ := runSerGo_inv styles (jatsOrderBlocks styles blocks) false []
  refine ⟨fun p hp => (hs p hp).2, ?_⟩
  simpa [firstAppearances, keysOf] using hf

/-- A registry with a back-matter style, and a document whose back block
precedes its body block in flat order, each carrying one footnote. -/
def stylesFn : StyleReg :=
  [("body", { key := "body" }), ("note", { key := "note", matterType := some "back" })]

def blocksFn : List SBlock :=
  [⟨"note", [Inline.fnRef "a" "A"]⟩, ⟨"body", [Inline.fnRef "b" "B"]⟩]

/-- The footnote ids of a document in flat block order. -/
def flatRefIds (blocks : List SBlock) : List String :=
  (blocks.map fun b => refIdsOf b.inlines).flatten

/-- Witness for `footnote_numbers_processed_order` at the concrete
document: footnote `a` is stamped 2, its position in processed order. -/
theorem footnote_numbers_processed_order_witness :
    (some 2 : Option Nat) =
      some ((idxOf "a" (keysOf (jatsFootnotes stylesFn blocksFn).1)).toNat + 1) :=
  (footnote_numbers_processed_order stylesFn blocksFn).1 ("a", some 2) (by decide)

/-- C3 (counterexample). The back-matter footnote `a` appears first in the
flat sequence but is numbered 2, because the body partition is serialized
before the back partition. -/
theorem footnote_flat_order_fails :
    (jatsFootnotes stylesFn blocksFn).2 = [("b", some 1), ("a", some 2)] ∧
    firstAppearances (flatRefIds blocksFn) = ["a", "b"] ∧
    ("a", (some 2 : Option Nat)) ∈ (jatsFootnotes stylesFn blocksFn).2 ∧
    ¬ ((some 2 : Option Nat) =
        some ((idxOf "a" (firstAppearances (flatRefIds blocksFn))).toNat + 1)) := by
  refine ⟨by decide, by decide, by decide, by decide⟩

end Editor
